import Mathlib

/-!
Shallow embedding of the trie implementation from `src/cpp/include/TrieNode.hpp`
and `src/cpp/include/Trie.hpp`, together with proofs of the specified
properties of its five operations (insert, get, remove, prefixSearch,
autocomplete).

Modelling choices:
* `std::unordered_map<char, std::unique_ptr<TrieNode<T>>>` becomes an
  association list `List (Char × TrieNode T)` with unique keys (uniqueness,
  which the C++ map enforces by construction, appears as the `nodupNode`
  hypothesis on theorems that need it).  Iteration order of the map is
  implementation-defined in C++, so the list order carries no meaning.
* `std::string` keys become `List Char`.
* The generic value type `T` carries `DecidableEq` where the C++ code
  requires `operator!=` (the overwrite check in `insert`).
* The C++ `int` is modelled as `Int` with an explicit wrap to 32 bits at the
  one point where overflow occurs (the `unsigned int` → `int` conversion in
  `autocomplete`); `(int)results.size()` stays exact because no stated
  property comes near 2^31 results.
* Mutation becomes explicit state passing: `remove` returns the new trie
  together with its `bool` result; the bottom-up pruning loop over the
  recorded path becomes the post-recursion step of `removeAux`, which applies
  the same `!hasChildren && !isEnd` test to the same child node.
-/

namespace TrieHard

/-- Node of the trie, modelling `TrieNode<T>` (TrieNode.hpp): a children map
from `char` to exclusively owned child nodes, plus an optional value. -/
inductive TrieNode (T : Type) : Type where
  | mk (children : List (Char × TrieNode T)) (value : Option T)

/-- Field accessor for the children map of a node. -/
def TrieNode.children {T : Type} : TrieNode T → List (Char × TrieNode T)
  | .mk cs _ => cs

/-- Field accessor for the optional value of a node. -/
def TrieNode.value {T : Type} : TrieNode T → Option T
  | .mk _ v => v

/-- A fresh node, as produced by `std::make_unique<TrieNode<T>>()`: no
children, no value. -/
def TrieNode.empty {T : Type} : TrieNode T := .mk [] none

/-- Lookup in the children association list, modelling `children.find(key)`
in `TrieNode::getChild`. -/
def assocGet {T : Type} : List (Char × TrieNode T) → Char → Option (TrieNode T)
  | [], _ => none
  | (k, n) :: rest, c => if k = c then some n else assocGet rest c

/-- Insert-or-replace in the children association list: replaces the binding
for `c` if present, appends a new binding otherwise (the `emplace` path of
`TrieNode::addChild` combined with in-place mutation of the found child). -/
def assocSet {T : Type} : List (Char × TrieNode T) → Char → TrieNode T → List (Char × TrieNode T)
  | [], c, x => [(c, x)]
  | (k, n) :: rest, c, x => if k = c then (c, x) :: rest else (k, n) :: assocSet rest c x

/-- Deletion from the children association list, modelling `children.erase(key)`
in `TrieNode::removeChild`. -/
def assocErase {T : Type} : List (Char × TrieNode T) → Char → List (Char × TrieNode T)
  | [], _ => []
  | (k, n) :: rest, c => if k = c then rest else (k, n) :: assocErase rest c

/-- Models `TrieNode::hasChildren`: `!children.empty()`. -/
def TrieNode.hasChildren {T : Type} (n : TrieNode T) : Bool := !n.children.isEmpty

/-- Models `TrieNode::getChild`: the child for that symbol, or absence. -/
def TrieNode.getChild {T : Type} (n : TrieNode T) (c : Char) : Option (TrieNode T) :=
  assocGet n.children c

/-- Functional rendering of writing through the pointer returned by
`TrieNode::addChild`: the children map now binds `c` to `x`. -/
def TrieNode.setChild {T : Type} (n : TrieNode T) (c : Char) (x : TrieNode T) : TrieNode T :=
  .mk (assocSet n.children c x) n.value

/-- Models `TrieNode::removeChild`: erases the edge and its owned child. -/
def TrieNode.removeChild {T : Type} (n : TrieNode T) (c : Char) : TrieNode T :=
  .mk (assocErase n.children c) n.value

/-- Models `TrieNode::isEnd`: `value.has_value()`. -/
def TrieNode.isEnd {T : Type} (n : TrieNode T) : Bool := n.value.isSome

/-- The trie, modelling `Trie<T>`: it owns the root node, which always
exists (`Trie() : root(std::make_unique<TrieNode<T>>())`). -/
structure Trie (T : Type) where
  root : TrieNode T

/-- A freshly constructed trie: root exists, childless and valueless. -/
def Trie.empty {T : Type} : Trie T := ⟨TrieNode.empty⟩

/-- Recursive rendering of the `for (char c : key)` walk in `Trie::insert`:
`addChild` either finds the existing child or creates an empty one, and the
rest of the key is inserted into that child; the final node receives the
value unless it already holds an equal one. -/
def insertAux {T : Type} [DecidableEq T] (node : TrieNode T) : List Char → T → TrieNode T
  | [], v =>
    match node.value with
    | none => .mk node.children (some v)
    | some w => if w ≠ v then .mk node.children (some v) else node
  | c :: rest, v =>
    let child :=
      match node.getChild c with
      | some ch => ch
      | none => TrieNode.empty
    node.setChild c (insertAux child rest v)

/-- Models `Trie::insert`. -/
def Trie.insert {T : Type} [DecidableEq T] (t : Trie T) (key : List Char) (v : T) : Trie T :=
  ⟨insertAux t.root key v⟩

/-- Models the walk of `Trie::get`: follow each character via `getChild`,
short-circuiting to absence, and return the final node's value. -/
def getAux {T : Type} (node : TrieNode T) : List Char → Option T
  | [] => node.value
  | c :: rest =>
    match node.getChild c with
    | none => none
    | some child => getAux child rest

/-- Models `Trie::get`. -/
def Trie.get {T : Type} (t : Trie T) (key : List Char) : Option T :=
  getAux t.root key

/-- Models `Trie::remove`: `none` is the `return false` path (missing child
on the walk, or final node not terminal); `some r` is the `return true` path,
where `r` is the node after clearing the final value and pruning.  The
bottom-up pruning loop over the recorded path appears here as the
post-recursion step: each parent applies `!child->hasChildren() &&
!child->isEnd()` to its updated child, erasing it when the test passes —
once a child survives, every ancestor above it has a child, so the test
fails above exactly as the C++ `break` skips those iterations. -/
def removeAux {T : Type} (node : TrieNode T) : List Char → Option (TrieNode T)
  | [] =>
    if node.isEnd then some (.mk node.children none) else none
  | c :: rest =>
    match node.getChild c with
    | none => none
    | some child =>
      match removeAux child rest with
      | none => none
      | some child2 =>
        if !child2.hasChildren && !child2.isEnd then some (node.removeChild c)
        else some (node.setChild c child2)

/-- Models `Trie::remove` at the trie level: the root is replaced by the
pruned node on success and is itself never deleted. -/
def Trie.remove {T : Type} (t : Trie T) (key : List Char) : Trie T × Bool :=
  match removeAux t.root key with
  | none => (t, false)
  | some r => (⟨r⟩, true)

/-- Models the walk of `Trie::prefixSearch`: true iff every character of the
prefix resolves to an existing child. -/
def prefixSearchAux {T : Type} (node : TrieNode T) : List Char → Bool
  | [] => true
  | c :: rest =>
    match node.getChild c with
    | none => false
    | some child => prefixSearchAux child rest

/-- Models `Trie::prefixSearch`. -/
def Trie.prefixSearch {T : Type} (t : Trie T) (pre : List Char) : Bool :=
  prefixSearchAux t.root pre

/-- The prefix-resolution walk shared by `Trie::autocomplete` (and, up to the
returned information, by `get` and `prefixSearch`): the node reached at the
end of the character sequence, or absence. -/
def walk {T : Type} (node : TrieNode T) : List Char → Option (TrieNode T)
  | [] => some node
  | c :: rest =>
    match node.getChild c with
    | none => none
    | some child => walk child rest

mutual

/-- Number of nodes in the subtree rooted at a node (termination measure for
the DFS stack loop of `autocomplete`). -/
def TrieNode.size {T : Type} : TrieNode T → Nat
  | .mk cs _ => 1 + sizeChildren cs

/-- Total node count over a children list. -/
def sizeChildren {T : Type} : List (Char × TrieNode T) → Nat
  | [] => 0
  | (_, n) :: rest => n.size + sizeChildren rest

end

/-- Total node count over a DFS stack. -/
def stackSize {T : Type} : List (TrieNode T) → Nat
  | [] => 0
  | n :: rest => n.size + stackSize rest

/-- Models the `for (const auto &entry : node->getChildren()) dfs.push(...)`
loop: every child is pushed onto the stack in turn. -/
def pushChildren {T : Type} : List (Char × TrieNode T) → List (TrieNode T) → List (TrieNode T)
  | [], stack => stack
  | (_, n) :: rest, stack => pushChildren rest (n :: stack)

theorem size_eq {T : Type} (n : TrieNode T) : n.size = 1 + sizeChildren n.children := by
  cases n
  rfl

theorem stackSize_pushChildren {T : Type} (cs : List (Char × TrieNode T)) (s : List (TrieNode T)) :
    stackSize (pushChildren cs s) = sizeChildren cs + stackSize s := by
  induction cs generalizing s with
  | nil => simp [pushChildren, sizeChildren]
  | cons p rest ih =>
    obtain ⟨c, n⟩ := p
    simp [pushChildren, sizeChildren, ih, stackSize]
    omega

/-- Models the `while (!dfs.empty() && (int)results.size() < limit)` loop of
`Trie::autocomplete`: pop a node, append its value if it is terminal, push
its children. -/
def dfsLoop {T : Type} (stack : List (TrieNode T)) (results : List T) (limit : Int) : List T :=
  match stack with
  | [] => results
  | node :: rest =>
    if (results.length : Int) < limit then
      dfsLoop (pushChildren node.children rest)
        (match node.value with
         | some x => results ++ [x]
         | none => results) limit
    else results
termination_by stackSize stack
decreasing_by
  simp only [stackSize, stackSize_pushChildren, size_eq]
  omega

/-- Conversion of a mathematical integer to the value of a 32-bit `int`
holding it (two's complement wrap-around), modelling the C++ unsigned-to-int
conversion in `Trie::autocomplete`. -/
def toInt32 (n : Int) : Int := (n + 2 ^ 31) % 2 ^ 32 - 2 ^ 31

/-- Value of `std::numeric_limits<unsigned int>::max()` on a 32-bit
`unsigned int`. -/
def uintMax : Int := 2 ^ 32 - 1

/-- Models `Trie::autocomplete`: on `limit == -1` the code stores `UINT_MAX`
into the `int` variable `limit`, which wraps back to `-1`; then the prefix is
resolved exactly as in `prefixSearch` and the DFS loop collects values. -/
def Trie.autocomplete {T : Type} (t : Trie T) (pre : List Char) (limit : Int) : List T :=
  let lim := if limit = -1 then toInt32 uintMax else limit
  match walk t.root pre with
  | none => []
  | some start => dfsLoop [start] [] lim

mutual

/-- Every value stored in the subtree rooted at a node: the node's own value
if terminal, followed by the values stored below each child. -/
def termValues {T : Type} : TrieNode T → List T
  | .mk cs v => v.toList ++ termValuesList cs

/-- Values stored below each entry of a children list. -/
def termValuesList {T : Type} : List (Char × TrieNode T) → List T
  | [] => []
  | (_, n) :: rest => termValues n ++ termValuesList rest

end

mutual

/-- Structural invariant below a node: every strict descendant has at least
one child or holds a value (the node itself is exempt, matching the root
exemption of the spec). -/
def wfBelow {T : Type} : TrieNode T → Bool
  | .mk cs _ => wfChildren cs

/-- The invariant over a children list: each child is live (has children or
a value) and satisfies the invariant below itself. -/
def wfChildren {T : Type} : List (Char × TrieNode T) → Bool
  | [] => true
  | (_, n) :: rest => (n.hasChildren || n.isEnd) && wfBelow n && wfChildren rest

end

/-- True iff character `c` is not a key of the children list. -/
def keyNotIn {T : Type} (c : Char) : List (Char × TrieNode T) → Bool
  | [] => true
  | (k, _) :: rest => (k != c) && keyNotIn c rest

mutual

/-- Key uniqueness of every children map in a subtree — the representation
invariant `std::unordered_map` provides by construction. -/
def nodupNode {T : Type} : TrieNode T → Bool
  | .mk cs _ => nodupChildren cs

/-- Key uniqueness of a children list and of every subtree hanging off it. -/
def nodupChildren {T : Type} : List (Char × TrieNode T) → Bool
  | [] => true
  | (k, n) :: rest => keyNotIn k rest && nodupNode n && nodupChildren rest

end

/-- Trie states reachable through the public API from a freshly constructed
trie; `get`, `prefixSearch` and `autocomplete` are `const` in the C++ class
and do not change the state, so `insert` and `remove` generate all states. -/
inductive Reachable {T : Type} [DecidableEq T] : Trie T → Prop where
  | empty : Reachable Trie.empty
  | insert (t : Trie T) (k : List Char) (v : T) : Reachable t → Reachable (t.insert k v)
  | remove (t : Trie T) (k : List Char) : Reachable t → Reachable ((t.remove k).1)

/-! Lemmas about the children association list. -/

theorem assocGet_set_self {T : Type} (cs : List (Char × TrieNode T)) (c : Char) (x : TrieNode T) :
    assocGet (assocSet cs c x) c = some x := by
  induction cs with
  | nil => simp [assocSet, assocGet]
  | cons p rest ih =>
    obtain ⟨k, n⟩ := p
    by_cases h : k = c
    · simp [assocSet, h, assocGet]
    · simp [assocSet, h, assocGet, ih]

theorem assocGet_set_ne {T : Type} (cs : List (Char × TrieNode T)) (c cq : Char) (x : TrieNode T)
    (h : cq ≠ c) : assocGet (assocSet cs c x) cq = assocGet cs cq := by
  induction cs with
  | nil => simp [assocSet, assocGet, Ne.symm h]
  | cons p rest ih =>
    obtain ⟨k, n⟩ := p
    by_cases hk : k = c
    · subst hk
      simp [assocSet, assocGet, Ne.symm h]
    · by_cases hq : k = cq
      · simp [assocSet, hk, assocGet, hq, h]
      · simp [assocSet, hk, assocGet, hq, ih]

theorem assocGet_erase_ne {T : Type} (cs : List (Char × TrieNode T)) (c cq : Char)
    (h : cq ≠ c) : assocGet (assocErase cs c) cq = assocGet cs cq := by
  induction cs with
  | nil => simp [assocErase]
  | cons p rest ih =>
    obtain ⟨k, n⟩ := p
    by_cases hk : k = c
    · subst hk
      simp [assocErase, assocGet, Ne.symm h]
    · by_cases hq : k = cq
      · simp [assocErase, hk, assocGet, hq, h]
      · simp [assocErase, hk, assocGet, hq, ih]

theorem assocGet_eq_none_of_keyNotIn {T : Type} (cs : List (Char × TrieNode T)) (c : Char)
    (h : keyNotIn c cs = true) : assocGet cs c = none := by
  induction cs with
  | nil => rfl
  | cons p rest ih =>
    obtain ⟨k, n⟩ := p
    simp only [keyNotIn, Bool.and_eq_true, bne_iff_ne, ne_eq] at h
    simp [assocGet, h.1, ih h.2]

theorem assocGet_erase_self {T : Type} (cs : List (Char × TrieNode T)) (c : Char)
    (h : nodupChildren cs = true) : assocGet (assocErase cs c) c = none := by
  induction cs with
  | nil => rfl
  | cons p rest ih =>
    obtain ⟨k, n⟩ := p
    simp only [nodupChildren, Bool.and_eq_true] at h
    by_cases hk : k = c
    · subst hk
      simpa [assocErase] using assocGet_eq_none_of_keyNotIn rest k h.1.1
    · simp [assocErase, hk, assocGet, ih h.2]

theorem nodupNode_of_assocGet {T : Type} {cs : List (Char × TrieNode T)} {c : Char}
    {n : TrieNode T} (h : nodupChildren cs = true) (hg : assocGet cs c = some n) :
    nodupNode n = true := by
  induction cs with
  | nil => simp [assocGet] at hg
  | cons p rest ih =>
    obtain ⟨k, m⟩ := p
    simp only [nodupChildren, Bool.and_eq_true] at h
    by_cases hk : k = c
    · simp only [assocGet, hk, if_pos rfl] at hg
      cases hg
      exact h.1.2
    · simp only [assocGet, hk, if_neg hk] at hg
      exact ih h.2 hg

theorem keyNotIn_assocSet {T : Type} (cs : List (Char × TrieNode T)) (k c : Char) (x : TrieNode T)
    (h : k ≠ c) (hk : keyNotIn k cs = true) : keyNotIn k (assocSet cs c x) = true := by
  induction cs with
  | nil => simp [assocSet, keyNotIn, Ne.symm h]
  | cons p rest ih =>
    obtain ⟨kp, n⟩ := p
    simp only [keyNotIn, Bool.and_eq_true, bne_iff_ne, ne_eq] at hk
    by_cases hp : kp = c
    · simp [assocSet, hp, keyNotIn, Ne.symm h, hk.2]
    · simp [assocSet, hp, keyNotIn, hk.1, ih hk.2]

theorem nodupChildren_assocSet {T : Type} (cs : List (Char × TrieNode T)) (c : Char)
    (x : TrieNode T) (h : nodupChildren cs = true) (hx : nodupNode x = true) :
    nodupChildren (assocSet cs c x) = true := by
  induction cs with
  | nil => simp [assocSet, nodupChildren, keyNotIn, hx]
  | cons p rest ih =>
    obtain ⟨k, n⟩ := p
    simp only [nodupChildren, Bool.and_eq_true] at h
    by_cases hk : k = c
    · subst hk
      simp [assocSet, nodupChildren, h.1.1, hx, h.2]
    · simp [assocSet, hk, nodupChildren, keyNotIn_assocSet rest k c x hk h.1.1, h.1.2, ih h.2]

/-! Lemmas about insertion. -/

theorem nodupNode_insertAux {T : Type} [DecidableEq T] (node : TrieNode T) (k : List Char)
    (v : T) (h : nodupNode node = true) : nodupNode (insertAux node k v) = true := by
  induction k generalizing node with
  | nil =>
    cases node with
    | mk cs val =>
      cases val with
      | none => simpa [insertAux, TrieNode.value, TrieNode.children, nodupNode] using h
      | some w =>
        by_cases hw : w = v
        · simpa [insertAux, TrieNode.value, hw] using h
        · simpa [insertAux, TrieNode.value, TrieNode.children, nodupNode, hw] using h
  | cons c rest ih =>
    cases node with
    | mk cs val =>
      have hcs : nodupChildren cs = true := h
      simp only [insertAux, TrieNode.setChild, TrieNode.getChild, TrieNode.children, nodupNode]
      cases hg : assocGet cs c with
      | none =>
        exact nodupChildren_assocSet cs c _ hcs (ih TrieNode.empty rfl)
      | some ch =>
        exact nodupChildren_assocSet cs c _ hcs (ih ch (nodupNode_of_assocGet hcs hg))

theorem getAux_insertAux_self {T : Type} [DecidableEq T] (node : TrieNode T) (k : List Char)
    (v : T) : getAux (insertAux node k v) k = some v := by
  induction k generalizing node with
  | nil =>
    cases node with
    | mk cs val =>
      cases val with
      | none => simp [insertAux, TrieNode.value, getAux]
      | some w =>
        by_cases hw : w = v
        · simp [insertAux, TrieNode.value, getAux, hw]
        · simp [insertAux, TrieNode.value, getAux, hw]
  | cons c rest ih =>
    cases node with
    | mk cs val =>
      simp only [insertAux, getAux, TrieNode.setChild, TrieNode.getChild, TrieNode.children,
        assocGet_set_self]
      exact ih _

theorem getAux_insertAux_empty {T : Type} [DecidableEq T] (k kq : List Char) (v : T)
    (h : kq ≠ k) : getAux (insertAux TrieNode.empty k v) kq = none := by
  induction k generalizing kq with
  | nil =>
    cases kq with
    | nil => exact absurd rfl h
    | cons c rest => simp [insertAux, TrieNode.empty, TrieNode.value, TrieNode.children,
        getAux, TrieNode.getChild, assocGet]
  | cons c rest ih =>
    cases kq with
    | nil =>
      simp [insertAux, TrieNode.empty, TrieNode.setChild, TrieNode.value, getAux]
    | cons cq restq =>
      by_cases hc : cq = c
      · subst hc
        have hrest : restq ≠ rest := by
          intro he
          exact h (by rw [he])
        simp only [insertAux, getAux, TrieNode.setChild, TrieNode.getChild, TrieNode.children,
          TrieNode.empty, assocGet_set_self]
        simpa [TrieNode.getChild, TrieNode.empty, TrieNode.children, assocGet]
          using ih restq hrest
      · simp [insertAux, getAux, TrieNode.setChild, TrieNode.getChild, TrieNode.children,
          TrieNode.empty, assocSet, assocGet, Ne.symm hc]

theorem getAux_insertAux_ne {T : Type} [DecidableEq T] (node : TrieNode T) (k kq : List Char)
    (v : T) (h : kq ≠ k) : getAux (insertAux node k v) kq = getAux node kq := by
  induction k generalizing node kq with
  | nil =>
    cases node with
    | mk cs val =>
      cases kq with
      | nil => exact absurd rfl h
      | cons cq restq =>
        cases val with
        | none => simp [insertAux, TrieNode.value, getAux, TrieNode.getChild, TrieNode.children]
        | some w =>
          by_cases hw : w = v
          · simp [insertAux, TrieNode.value, hw]
          · simp [insertAux, TrieNode.value, hw, getAux, TrieNode.getChild, TrieNode.children]
  | cons c rest ih =>
    cases node with
    | mk cs val =>
      cases kq with
      | nil =>
        simp [insertAux, TrieNode.setChild, TrieNode.value, getAux]
      | cons cq restq =>
        by_cases hc : cq = c
        · subst hc
          have hrest : restq ≠ rest := by
            intro he
            exact h (by rw [he])
          simp only [insertAux, getAux, TrieNode.setChild, TrieNode.getChild, TrieNode.children,
            assocGet_set_self]
          cases hg : assocGet cs cq with
          | none =>
            simp only [hg]
            exact getAux_insertAux_empty rest restq v hrest
          | some ch =>
            simp only [hg]
            exact ih ch restq hrest
        · simp only [insertAux, getAux, TrieNode.setChild, TrieNode.getChild, TrieNode.children,
            assocGet_set_ne cs c cq _ hc]

/-- C5: for every key (the empty string included), every value and every trie
state, `get` run immediately after `insert(k, v)` returns `v`; in particular
re-inserting an existing key with a different value leaves only the latest
value retrievable. -/
theorem c5_insert_get_roundtrip {T : Type} [DecidableEq T] (t : Trie T) (k : List Char)
    (v : T) :
    (t.insert k v).get k = some v ∧ ∀ w : T, ((t.insert k w).insert k v).get k = some v := by
  refine ⟨getAux_insertAux_self t.root k v, fun w => ?_⟩
  exact getAux_insertAux_self (insertAux t.root k w) k v

/-- C10: insertion of key `k` never changes the value observed for any other
key `kq`, whether the keys share a prefix or one is a prefix of the other. -/
theorem c10_insert_frame {T : Type} [DecidableEq T] (t : Trie T) (k kq : List Char) (v : T)
    (h : kq ≠ k) : (t.insert k v).get kq = t.get kq :=
  getAux_insertAux_ne t.root k kq v h

/-- C10 witness: inserting `"a"` leaves the stored mapping of `"ab"` intact. -/
theorem c10_insert_frame_witness :
    (['a', 'b'] ≠ (['a'] : List Char))
    ∧ ((Trie.empty.insert ['a', 'b'] (5 : Nat)).insert ['a'] 7).get ['a', 'b']
      = (Trie.empty.insert ['a', 'b'] (5 : Nat)).get ['a', 'b'] :=
  ⟨by decide, c10_insert_frame (Trie.empty.insert ['a', 'b'] 5) ['a'] ['a', 'b'] 7 (by decide)⟩

/-! Lemmas about the prefix walk. -/

theorem prefixSearchAux_eq_walk {T : Type} (node : TrieNode T) (pre : List Char) :
    prefixSearchAux node pre = (walk node pre).isSome := by
  induction pre generalizing node with
  | nil => rfl
  | cons c rest ih =>
    cases hg : node.getChild c with
    | none => simp [prefixSearchAux, walk, hg]
    | some child => simp [prefixSearchAux, walk, hg, ih]

/-- C9: `prefixSearch` returns true exactly when every character of the
prefix resolves to an existing child from the root — independent of terminal
markers; the empty prefix always succeeds, and after inserting only
`"cartoon"` the prefix `"car"` is found while `get("car")` is absent. -/
theorem c9_prefixSearch_characterisation {T : Type} (t : Trie T) (pre : List Char) :
    (t.prefixSearch pre = true ↔ (walk t.root pre).isSome = true)
    ∧ t.prefixSearch [] = true
    ∧ (Trie.empty.insert ['c', 'a', 'r', 't', 'o', 'o', 'n'] (7 : Nat)).prefixSearch
        ['c', 'a', 'r'] = true
    ∧ (Trie.empty.insert ['c', 'a', 'r', 't', 'o', 'o', 'n'] (7 : Nat)).get
        ['c', 'a', 'r'] = none := by
  refine ⟨?_, rfl, rfl, rfl⟩
  rw [Trie.prefixSearch, prefixSearchAux_eq_walk]

/-! Lemmas about removal. -/

theorem removeAux_isSome {T : Type} (node : TrieNode T) (k : List Char) (w : T)
    (h : getAux node k = some w) : (removeAux node k).isSome = true := by
  induction k generalizing node with
  | nil =>
    simp only [getAux] at h
    simp [removeAux, TrieNode.isEnd, h]
  | cons c rest ih =>
    cases hg : node.getChild c with
    | none => simp [getAux, hg] at h
    | some child =>
      simp only [getAux, hg] at h
      have hrec := ih child h
      simp only [removeAux, hg]
      cases hr : removeAux child rest with
      | none => simp [hr] at hrec
      | some child2 =>
        simp only [hr]
        split <;> rfl

theorem getAux_removeAux {T : Type} (node : TrieNode T) (k : List Char) (r : TrieNode T)
    (h : removeAux node k = some r) (hnd : nodupNode node = true) : getAux r k = none := by
  induction k generalizing node r with
  | nil =>
    simp only [removeAux] at h
    cases he : node.isEnd with
    | false => simp [he] at h
    | true =>
      rw [if_pos he] at h
      cases h
      simp [getAux, TrieNode.value]
  | cons c rest ih =>
    cases node with
    | mk cs val =>
      simp only [nodupNode] at hnd
      cases hg : assocGet cs c with
      | none => simp [removeAux, TrieNode.getChild, TrieNode.children, hg] at h
      | some child =>
        simp only [removeAux, TrieNode.getChild, TrieNode.children, hg] at h
        cases hr : removeAux child rest with
        | none => simp [hr] at h
        | some child2 =>
          simp only [hr] at h
          have hndc : nodupNode child = true := nodupNode_of_assocGet hnd hg
          by_cases hcond : (!child2.hasChildren && !child2.isEnd) = true
          · rw [if_pos hcond] at h
            cases h
            simp [getAux, TrieNode.getChild, TrieNode.removeChild, TrieNode.children,
              assocGet_erase_self cs c hnd]
          · rw [if_neg hcond] at h
            cases h
            simp only [getAux, TrieNode.setChild, TrieNode.getChild, TrieNode.children,
              assocGet_set_self]
            exact ih child child2 hr hndc

theorem removeAux_removeAux {T : Type} (node : TrieNode T) (k : List Char) (r : TrieNode T)
    (h : removeAux node k = some r) (hnd : nodupNode node = true) : removeAux r k = none := by
  induction k generalizing node r with
  | nil =>
    simp only [removeAux] at h
    cases he : node.isEnd with
    | false => simp [he] at h
    | true =>
      rw [if_pos he] at h
      cases h
      simp [removeAux, TrieNode.isEnd, TrieNode.value]
  | cons c rest ih =>
    cases node with
    | mk cs val =>
      simp only [nodupNode] at hnd
      cases hg : assocGet cs c with
      | none => simp [removeAux, TrieNode.getChild, TrieNode.children, hg] at h
      | some child =>
        simp only [removeAux, TrieNode.getChild, TrieNode.children, hg] at h
        cases hr : removeAux child rest with
        | none => simp [hr] at h
        | some child2 =>
          simp only [hr] at h
          have hndc : nodupNode child = true := nodupNode_of_assocGet hnd hg
          by_cases hcond : (!child2.hasChildren && !child2.isEnd) = true
          · rw [if_pos hcond] at h
            cases h
            simp [removeAux, TrieNode.getChild, TrieNode.removeChild, TrieNode.children,
              assocGet_erase_self cs c hnd]
          · rw [if_neg hcond] at h
            cases h
            simp only [removeAux, TrieNode.setChild, TrieNode.getChild, TrieNode.children,
              assocGet_set_self]
            rw [ih child child2 hr hndc]

theorem removeAux_eq_none_of_getAux_none {T : Type} (node : TrieNode T) (k : List Char)
    (h : getAux node k = none) : removeAux node k = none := by
  induction k generalizing node with
  | nil =>
    simp only [getAux] at h
    simp [removeAux, TrieNode.isEnd, h]
  | cons c rest ih =>
    cases hg : node.getChild c with
    | none => simp [removeAux, hg]
    | some child =>
      simp only [getAux, hg] at h
      simp [removeAux, hg, ih child h]

/-- C2: in any trie state (with the key-uniqueness invariant the C++
children maps provide by construction), inserting a key — the empty string
included — and then removing it makes `remove` report success, leaves `get`
reporting absence, and makes a second `remove` of the same key report
failure. -/
theorem c2_deletion_correctness {T : Type} [DecidableEq T] (t : Trie T) (k : List Char)
    (v : T) (hnd : nodupNode t.root = true) :
    ((t.insert k v).remove k).2 = true
    ∧ ((t.insert k v).remove k).1.get k = none
    ∧ (((t.insert k v).remove k).1.remove k).2 = false := by
  have hins : getAux (insertAux t.root k v) k = some v := getAux_insertAux_self t.root k v
  have hndi : nodupNode (insertAux t.root k v) = true := nodupNode_insertAux t.root k v hnd
  have hsome := removeAux_isSome (insertAux t.root k v) k v hins
  obtain ⟨r, hr⟩ := Option.isSome_iff_exists.1 hsome
  refine ⟨?_, ?_, ?_⟩
  · simp [Trie.remove, Trie.insert, hr]
  · simpa [Trie.remove, Trie.insert, hr, Trie.get] using getAux_removeAux _ k r hr hndi
  · simp [Trie.remove, Trie.insert, hr, removeAux_removeAux _ k r hr hndi]

/-- C2 witness: the deletion round-trip at the concrete state of an empty
trie with key `"a"` and value 0. -/
theorem c2_deletion_correctness_witness :
    nodupNode (Trie.empty : Trie Nat).root = true
    ∧ ((((Trie.empty : Trie Nat).insert ['a'] 0).remove ['a']).2 = true
       ∧ (((Trie.empty : Trie Nat).insert ['a'] 0).remove ['a']).1.get ['a'] = none
       ∧ ((((Trie.empty : Trie Nat).insert ['a'] 0).remove ['a']).1.remove ['a']).2 = false) :=
  ⟨rfl, c2_deletion_correctness Trie.empty ['a'] 0 rfl⟩

/-- C8: removing a key that is not currently stored — its path breaks, or
its final node is not terminal — returns `false` and returns the trie
unchanged, every node and value identical. -/
theorem c8_remove_absent_noop {T : Type} (t : Trie T) (k : List Char)
    (h : t.get k = none) : t.remove k = (t, false) := by
  rw [Trie.remove, removeAux_eq_none_of_getAux_none t.root k h]

/-- C8 witness: removing `"c"` from a trie that stores only `"ca"` — the node
for `"c"` exists but is not terminal — reports failure and changes nothing. -/
theorem c8_remove_absent_noop_witness :
    (Trie.empty.insert ['c', 'a'] (1 : Nat)).get ['c'] = none
    ∧ (Trie.empty.insert ['c', 'a'] (1 : Nat)).remove ['c']
      = (Trie.empty.insert ['c', 'a'] (1 : Nat), false) :=
  ⟨rfl, c8_remove_absent_noop (Trie.empty.insert ['c', 'a'] 1) ['c'] rfl⟩

/-- C3: insert `"cat" → 1` and `"car" → 2`, then remove `"cat"`: `"car"` is
still retrievable, `"cat"` is absent, the shared `"ca"` prefix path survives
while the node for `'t'` is gone, and the resulting trie is exactly the trie
holding only `"car" → 2` — pruning removed precisely the nodes private to
`"cat"` and stopped at the first ancestor that still had a child. -/
theorem c3_pruning_minimality :
    ((((Trie.empty.insert ['c', 'a', 't'] (1 : Nat)).insert ['c', 'a', 'r'] 2).remove
      ['c', 'a', 't']).1).get ['c', 'a', 'r'] = some 2
    ∧ ((((Trie.empty.insert ['c', 'a', 't'] (1 : Nat)).insert ['c', 'a', 'r'] 2).remove
      ['c', 'a', 't']).1).get ['c', 'a', 't'] = none
    ∧ ((((Trie.empty.insert ['c', 'a', 't'] (1 : Nat)).insert ['c', 'a', 'r'] 2).remove
      ['c', 'a', 't']).1).prefixSearch ['c', 'a'] = true
    ∧ walk ((((Trie.empty.insert ['c', 'a', 't'] (1 : Nat)).insert ['c', 'a', 'r'] 2).remove
      ['c', 'a', 't']).1).root ['c', 'a', 't'] = none
    ∧ (((Trie.empty.insert ['c', 'a', 't'] (1 : Nat)).insert ['c', 'a', 'r'] 2).remove
      ['c', 'a', 't']).1 = Trie.empty.insert ['c', 'a', 'r'] 2 :=
  ⟨rfl, rfl, rfl, rfl, rfl⟩

/-- C4: insert `"car" → 2` and `"cart" → 4`, then remove `"car"`: the removal
succeeds and clears the value, but the node for `"car"` survives as an
internal ancestor of `"cart"` — `prefixSearch("car")` stays true and
`get("cart")` still returns 4. -/
theorem c4_false_leaf_preserved :
    ((((Trie.empty.insert ['c', 'a', 'r'] (2 : Nat)).insert ['c', 'a', 'r', 't'] 4).remove
      ['c', 'a', 'r']).2 = true)
    ∧ ((((Trie.empty.insert ['c', 'a', 'r'] (2 : Nat)).insert ['c', 'a', 'r', 't'] 4).remove
      ['c', 'a', 'r']).1).prefixSearch ['c', 'a', 'r'] = true
    ∧ ((((Trie.empty.insert ['c', 'a', 'r'] (2 : Nat)).insert ['c', 'a', 'r', 't'] 4).remove
      ['c', 'a', 'r']).1).get ['c', 'a', 'r', 't'] = some 4
    ∧ ((((Trie.empty.insert ['c', 'a', 'r'] (2 : Nat)).insert ['c', 'a', 'r', 't'] 4).remove
      ['c', 'a', 'r']).1).get ['c', 'a', 'r'] = none :=
  ⟨rfl, rfl, rfl, rfl⟩

/-! Lemmas for the structural invariant. -/

theorem assocSet_ne_nil {T : Type} (cs : List (Char × TrieNode T)) (c : Char) (x : TrieNode T) :
    assocSet cs c x ≠ [] := by
  cases cs with
  | nil => simp [assocSet]
  | cons p rest =>
    obtain ⟨k, n⟩ := p
    simp only [assocSet]
    split <;> simp

theorem not_isEmpty_of_ne_nil {α : Type} {l : List α} (h : l ≠ []) : (!l.isEmpty) = true := by
  cases l with
  | nil => exact absurd rfl h
  | cons a as => rfl

theorem insertAux_live {T : Type} [DecidableEq T] (node : TrieNode T) (k : List Char) (v : T) :
    ((insertAux node k v).hasChildren || (insertAux node k v).isEnd) = true := by
  cases k with
  | nil =>
    cases node with
    | mk cs val =>
      cases val with
      | none => simp [insertAux, TrieNode.value, TrieNode.isEnd]
      | some w =>
        by_cases hw : w = v
        · simp [insertAux, TrieNode.value, TrieNode.isEnd, hw]
        · simp [insertAux, TrieNode.value, TrieNode.isEnd, hw]
  | cons c rest =>
    cases node with
    | mk cs val =>
      simp only [insertAux, TrieNode.setChild, TrieNode.getChild, TrieNode.children,
        TrieNode.hasChildren, Bool.or_eq_true]
      left
      exact not_isEmpty_of_ne_nil (assocSet_ne_nil _ _ _)

theorem wf_of_assocGet {T : Type} {cs : List (Char × TrieNode T)} {c : Char} {n : TrieNode T}
    (h : wfChildren cs = true) (hg : assocGet cs c = some n) :
    (n.hasChildren || n.isEnd) = true ∧ wfBelow n = true := by
  induction cs with
  | nil => simp [assocGet] at hg
  | cons p rest ih =>
    obtain ⟨k, m⟩ := p
    simp only [wfChildren, Bool.and_eq_true] at h
    by_cases hk : k = c
    · simp only [assocGet, if_pos hk] at hg
      cases hg
      exact ⟨h.1.1, h.1.2⟩
    · simp only [assocGet, if_neg hk] at hg
      exact ih h.2 hg

theorem wfChildren_assocSet {T : Type} (cs : List (Char × TrieNode T)) (c : Char)
    (x : TrieNode T) (h : wfChildren cs = true) (hx1 : (x.hasChildren || x.isEnd) = true)
    (hx2 : wfBelow x = true) : wfChildren (assocSet cs c x) = true := by
  induction cs with
  | nil => simp [assocSet, wfChildren, hx1, hx2]
  | cons p rest ih =>
    obtain ⟨k, n⟩ := p
    simp only [wfChildren, Bool.and_eq_true] at h
    by_cases hk : k = c
    · simp [assocSet, hk, wfChildren, hx1, hx2, h.2]
    · simp [assocSet, hk, wfChildren, h.1.1, h.1.2, ih h.2]

theorem wfChildren_assocErase {T : Type} (cs : List (Char × TrieNode T)) (c : Char)
    (h : wfChildren cs = true) : wfChildren (assocErase cs c) = true := by
  induction cs with
  | nil => rfl
  | cons p rest ih =>
    obtain ⟨k, n⟩ := p
    simp only [wfChildren, Bool.and_eq_true] at h
    by_cases hk : k = c
    · simpa [assocErase, hk] using h.2
    · simp [assocErase, hk, wfChildren, h.1.1, h.1.2, ih h.2]

theorem wfBelow_insertAux {T : Type} [DecidableEq T] (node : TrieNode T) (k : List Char)
    (v : T) (h : wfBelow node = true) : wfBelow (insertAux node k v) = true := by
  induction k generalizing node with
  | nil =>
    cases node with
    | mk cs val =>
      cases val with
      | none => simpa [insertAux, TrieNode.value, TrieNode.children, wfBelow] using h
      | some w =>
        by_cases hw : w = v
        · simpa [insertAux, TrieNode.value, hw] using h
        · simpa [insertAux, TrieNode.value, TrieNode.children, wfBelow, hw] using h
  | cons c rest ih =>
    cases node with
    | mk cs val =>
      have hcs : wfChildren cs = true := h
      simp only [insertAux, TrieNode.setChild, TrieNode.getChild, TrieNode.children, wfBelow]
      cases hg : assocGet cs c with
      | none =>
        exact wfChildren_assocSet cs c _ hcs (insertAux_live _ rest v) (ih TrieNode.empty rfl)
      | some ch =>
        exact wfChildren_assocSet cs c _ hcs (insertAux_live _ rest v)
          (ih ch (wf_of_assocGet hcs hg).2)

theorem wfBelow_removeAux {T : Type} (node : TrieNode T) (k : List Char) (r : TrieNode T)
    (h : removeAux node k = some r) (hw : wfBelow node = true) : wfBelow r = true := by
  induction k generalizing node r with
  | nil =>
    simp only [removeAux] at h
    cases he : node.isEnd with
    | false => simp [he] at h
    | true =>
      rw [if_pos he] at h
      cases h
      cases node with
      | mk cs val => simpa [wfBelow, TrieNode.children] using hw
  | cons c rest ih =>
    cases node with
    | mk cs val =>
      have hcs : wfChildren cs = true := hw
      cases hg : assocGet cs c with
      | none => simp [removeAux, TrieNode.getChild, TrieNode.children, hg] at h
      | some child =>
        simp only [removeAux, TrieNode.getChild, TrieNode.children, hg] at h
        cases hr : removeAux child rest with
        | none => simp [hr] at h
        | some child2 =>
          simp only [hr] at h
          by_cases hcond : (!child2.hasChildren && !child2.isEnd) = true
          · rw [if_pos hcond] at h
            cases h
            exact wfChildren_assocErase cs c hcs
          · rw [if_neg hcond] at h
            cases h
            have hlive : (child2.hasChildren || child2.isEnd) = true := by
              revert hcond
              cases child2.hasChildren <;> cases child2.isEnd <;> simp
            exact wfChildren_assocSet cs c child2 hcs hlive
              (ih child child2 hr (wf_of_assocGet hcs hg).2)

/-- C7: every state reachable through the API (insert and remove are the
mutating operations; get, prefixSearch and autocomplete are `const`) keeps
the structural invariant that every node strictly below the root has at
least one child or holds a value; and `remove("")` clears the root's value
but never deletes the root — its children map is untouched. -/
theorem c7_structural_invariant {T : Type} [DecidableEq T] (t : Trie T) (h : Reachable t) :
    wfBelow t.root = true ∧ ((t.remove []).1).root.children = t.root.children := by
  constructor
  · induction h with
    | empty => rfl
    | insert t0 k v _ ih => exact wfBelow_insertAux t0.root k v ih
    | remove t0 k _ ih =>
      cases hr : removeAux t0.root k with
      | none => simpa [Trie.remove, hr] using ih
      | some r => simpa [Trie.remove, hr] using wfBelow_removeAux t0.root k r hr ih
  · cases he : t.root.isEnd with
    | true => simp [Trie.remove, removeAux, he, TrieNode.children]
    | false => simp [Trie.remove, removeAux, he]

/-- C7 witness: the invariant at the concrete reachable state holding only
the key `"a"`. -/
theorem c7_structural_invariant_witness :
    wfBelow ((Trie.empty : Trie Nat).insert ['a'] 1).root = true
    ∧ (((((Trie.empty : Trie Nat).insert ['a'] 1).remove []).1)).root.children
      = ((Trie.empty : Trie Nat).insert ['a'] 1).root.children :=
  c7_structural_invariant _ (Reachable.insert _ _ _ Reachable.empty)

/-! Lemmas about the DFS enumeration of `autocomplete`. -/

theorem dfsLoop_nil {T : Type} (acc : List T) (limit : Int) :
    dfsLoop ([] : List (TrieNode T)) acc limit = acc := by
  rw [dfsLoop.eq_def]

theorem dfsLoop_cons {T : Type} (node : TrieNode T) (rest : List (TrieNode T)) (acc : List T)
    (limit : Int) :
    dfsLoop (node :: rest) acc limit
      = if (acc.length : Int) < limit then
          dfsLoop (pushChildren node.children rest)
            (match node.value with
             | some x => acc ++ [x]
             | none => acc) limit
        else acc := by
  rw [dfsLoop.eq_def]

/-- Number of stored values in the subtrees of all stacked nodes. -/
def stackTerm {T : Type} : List (TrieNode T) → Nat
  | [] => 0
  | n :: rest => (termValues n).length + stackTerm rest

theorem stackTerm_pushChildren {T : Type} (cs : List (Char × TrieNode T))
    (s : List (TrieNode T)) :
    stackTerm (pushChildren cs s) = (termValuesList cs).length + stackTerm s := by
  induction cs generalizing s with
  | nil => simp [pushChildren, termValuesList]
  | cons p rest ih =>
    obtain ⟨c, n⟩ := p
    simp [pushChildren, termValuesList, ih, stackTerm, List.length_append]
    omega

theorem dfsLoop_length {T : Type} :
    ∀ (s : List (TrieNode T)) (acc : List T) (limit : Int),
      (acc.length : Int) ≤ limit →
      ((dfsLoop s acc limit).length : Int)
        = min ((acc.length : Int) + (stackTerm s : Int)) limit
  | [], acc, limit, h => by
    rw [dfsLoop_nil]
    simp only [stackTerm]
    omega
  | TrieNode.mk cs v :: rest, acc, limit, h => by
    rw [dfsLoop_cons]
    by_cases hlt : (acc.length : Int) < limit
    · rw [if_pos hlt]
      simp only [TrieNode.value, TrieNode.children]
      cases v with
      | none =>
        have ih := dfsLoop_length (pushChildren cs rest) acc limit (le_of_lt hlt)
        rw [ih]
        simp only [stackTerm_pushChildren, stackTerm, termValues, Option.toList,
          List.length_append, List.nil_append]
      | some x =>
        have ih := dfsLoop_length (pushChildren cs rest) (acc ++ [x]) limit
          (by simp only [List.length_append, List.length_singleton]; omega)
        rw [ih]
        simp only [stackTerm_pushChildren, stackTerm, termValues, Option.toList,
          List.length_append, List.length_singleton, List.length_cons]
        omega
    · rw [if_neg hlt]
      simp only [stackTerm]
      omega
termination_by s => stackSize s
decreasing_by all_goals
  simp only [stackSize, stackSize_pushChildren, size_eq, TrieNode.children]
  omega

theorem mem_pushChildren {T : Type} (cs : List (Char × TrieNode T)) (s : List (TrieNode T))
    (m : TrieNode T) :
    m ∈ pushChildren cs s ↔ (∃ c, (c, m) ∈ cs) ∨ m ∈ s := by
  induction cs generalizing s with
  | nil => simp [pushChildren]
  | cons p rest ih =>
    obtain ⟨c, n⟩ := p
    rw [pushChildren, ih]
    constructor
    · rintro (⟨cq, hq⟩ | hm)
      · exact Or.inl ⟨cq, List.mem_cons_of_mem _ hq⟩
      · rcases List.mem_cons.1 hm with he | hs2
        · exact Or.inl ⟨c, by rw [he]; exact List.mem_cons_self _ _⟩
        · exact Or.inr hs2
    · rintro (⟨cq, hq⟩ | hm)
      · rcases List.mem_cons.1 hq with he | hrest
        · refine Or.inr (List.mem_cons.2 (Or.inl ?_))
          exact (Prod.mk.injEq _ _ _ _ ▸ he).2
        · exact Or.inl ⟨cq, hrest⟩
      · exact Or.inr (List.mem_cons_of_mem _ hm)

theorem mem_termValuesList {T : Type} (cs : List (Char × TrieNode T)) (c : Char)
    (n : TrieNode T) (h : (c, n) ∈ cs) (x : T) (hx : x ∈ termValues n) :
    x ∈ termValuesList cs := by
  induction cs with
  | nil => simp at h
  | cons p rest ih =>
    obtain ⟨cp, np⟩ := p
    rcases List.mem_cons.1 h with he | hrest
    · have hn : n = np := (Prod.mk.injEq _ _ _ _ ▸ he).2
      simp only [termValuesList]
      exact List.mem_append_left _ (hn ▸ hx)
    · simp only [termValuesList]
      exact List.mem_append_right _ (ih hrest)

theorem dfsLoop_mem {T : Type} :
    ∀ (s : List (TrieNode T)) (acc : List T) (limit : Int) (x : T),
      x ∈ dfsLoop s acc limit → x ∈ acc ∨ ∃ n, n ∈ s ∧ x ∈ termValues n
  | [], acc, limit, x, hx => by
    rw [dfsLoop_nil] at hx
    exact Or.inl hx
  | TrieNode.mk cs v :: rest, acc, limit, x, hx => by
    rw [dfsLoop_cons] at hx
    by_cases hlt : (acc.length : Int) < limit
    · rw [if_pos hlt] at hx
      simp only [TrieNode.value, TrieNode.children] at hx
      cases v with
      | none =>
        rcases dfsLoop_mem _ _ _ x hx with h | ⟨n, hn, hxn⟩
        · exact Or.inl h
        · rcases (mem_pushChildren cs rest n).1 hn with ⟨c, hc⟩ | hrest
          · refine Or.inr ⟨TrieNode.mk cs none, List.mem_cons_self _ _, ?_⟩
            simp only [termValues, Option.toList, List.nil_append]
            exact mem_termValuesList cs c n hc x hxn
          · exact Or.inr ⟨n, List.mem_cons_of_mem _ hrest, hxn⟩
      | some w =>
        rcases dfsLoop_mem _ _ _ x hx with h | ⟨n, hn, hxn⟩
        · rcases List.mem_append.1 h with h1 | h2
          · exact Or.inl h1
          · refine Or.inr ⟨TrieNode.mk cs (some w), List.mem_cons_self _ _, ?_⟩
            simp only [termValues, Option.toList]
            exact List.mem_append_left _ h2
        · rcases (mem_pushChildren cs rest n).1 hn with ⟨c, hc⟩ | hrest
          · refine Or.inr ⟨TrieNode.mk cs (some w), List.mem_cons_self _ _, ?_⟩
            simp only [termValues, Option.toList]
            exact List.mem_append_right _ (mem_termValuesList cs c n hc x hxn)
          · exact Or.inr ⟨n, List.mem_cons_of_mem _ hrest, hxn⟩
    · rw [if_neg hlt] at hx
      exact Or.inl hx
termination_by s => stackSize s
decreasing_by all_goals
  simp only [stackSize, stackSize_pushChildren, size_eq, TrieNode.children]
  omega

/-- C6: for every trie state, prefix and non-negative limit, `autocomplete`
returns an empty sequence when the prefix does not resolve, and otherwise a
sequence of exactly `min(matches, limit)` values, each of which is stored
under some key beginning with the prefix (the prefix node's own value, when
it is terminal, is among the candidates). -/
theorem c6_autocomplete_bounded {T : Type} (t : Trie T) (pre : List Char) (limit : Int)
    (h0 : 0 ≤ limit) :
    (walk t.root pre = none → t.autocomplete pre limit = [])
    ∧ ∀ start, walk t.root pre = some start →
        ((t.autocomplete pre limit).length : Int)
          = min ((termValues start).length : Int) limit
        ∧ ∀ x ∈ t.autocomplete pre limit, x ∈ termValues start := by
  have hlim : ¬ limit = -1 := by omega
  constructor
  · intro h
    simp [Trie.autocomplete, h]
  · intro start h
    have key : t.autocomplete pre limit = dfsLoop [start] [] limit := by
      simp [Trie.autocomplete, h, hlim]
    rw [key]
    constructor
    · have hlen := dfsLoop_length [start] [] limit (by simpa using h0)
      simpa [stackTerm] using hlen
    · intro x hx
      rcases dfsLoop_mem [start] [] limit x hx with h1 | ⟨n, hn, hxn⟩
      · simp at h1
      · rcases List.mem_cons.1 hn with he | h2
        · exact he ▸ hxn
        · simp at h2

/-- The three-key example trie of the autocomplete tests: "cat" → 1,
"car" → 2, "cap" → 3. -/
def tca : Trie Nat :=
  ((Trie.empty.insert ['c', 'a', 't'] 1).insert ['c', 'a', 'r'] 2).insert ['c', 'a', 'p'] 3

/-- The node at the end of the prefix "ca" in `tca`. -/
def caNode : TrieNode Nat := (walk tca.root ['c', 'a']).getD TrieNode.empty

/-- C6 witness: `autocomplete("ca", 2)` on the three-key trie returns
exactly `min(3, 2)` values from the subtree of "ca". -/
theorem c6_autocomplete_bounded_witness :
    (0 : Int) ≤ 2
    ∧ ((tca.autocomplete ['c', 'a'] 2).length : Int)
      = min ((termValues caNode).length : Int) 2
    ∧ ∀ x ∈ tca.autocomplete ['c', 'a'] 2, x ∈ termValues caNode :=
  ⟨by decide, (c6_autocomplete_bounded tca ['c', 'a'] 2 (by decide)).2 caNode rfl⟩

/-- C1: the code intends `limit == -1` to mean unlimited (it assigns
`UINT_MAX`), but the assignment stores the value into a 32-bit `int`, which
wraps back to `-1`; the DFS loop condition `(int)results.size() < limit` is
then false at once, so `autocomplete(prefix, -1)` returns the empty sequence
even though a matching value is stored. -/
theorem c1_autocomplete_sentinel_empty :
    (Trie.empty.insert ['c', 'a', 't'] (1 : Nat)).get ['c', 'a', 't'] = some 1
    ∧ toInt32 uintMax = -1
    ∧ (Trie.empty.insert ['c', 'a', 't'] (1 : Nat)).autocomplete ['c', 'a'] (-1) = [] := by
  refine ⟨rfl, by decide, ?_⟩
  have e : (Trie.empty.insert ['c', 'a', 't'] (1 : Nat)).autocomplete ['c', 'a'] (-1)
      = dfsLoop [TrieNode.mk [('t', TrieNode.mk [] (some 1))] none] [] (toInt32 uintMax) := rfl
  rw [e, dfsLoop_cons, if_neg (by decide)]

end TrieHard
